import Mathlib

/-!
Verification of the cassabon store manager and path resolver.

The Go source is embedded shallowly:

* Go maps become association lists (`List (κ × β)`) with `lookupKey` /
  `setKey` / `updateKey` mirroring map read, insert-or-replace and
  in-place update.
* Pointer sharing between `byPath` and `byExpr` (both hold `*rollup`)
  is made explicit with a heap: rollups live in `heap : List (Nat × Rollup)`
  and both maps store the `Nat` id, so a mutation through one view is a
  heap update visible through the other.
* `time.Time` and `time.Duration` are `Int` nanoseconds since the epoch.
* `float64` metric values are embedded as `ℚ`; the claims under proof are
  about the update formulas the code computes, not about rounding.
* External collaborators (Cassandra, Redis, regexes, channels) are
  oracle parameters: the database is `db : String → String → List ℚ`
  (table, path ↦ stats), the sorted-index range scan is
  `zr : String → String → Except Unit (List String)`, regex matching is a
  boolean-valued function, and channel emissions are returned as lists.
-/

namespace Cassabon

/-! ## Association-list maps (Go `map` semantics) -/

/-- Go map read: first binding of `k`, if any. -/
def lookupKey {α β : Type} [DecidableEq α] (k : α) : List (α × β) → Option β
  | [] => none
  | (k', v) :: rest => if k' = k then some v else lookupKey k rest

/-- Go map assignment `m[k] = v`: replace the binding if present, else append. -/
def setKey {α β : Type} [DecidableEq α] (k : α) (v : β) : List (α × β) → List (α × β)
  | [] => [(k, v)]
  | (k', v') :: rest => if k' = k then (k, v) :: rest else (k', v') :: setKey k v rest

/-- Mutation of the value stored under `k` (Go: update through a pointer held
in the map). A no-op when `k` is absent; the theorems' hypotheses keep that
case unreachable, matching the Go code which would dereference nil there. -/
def updateKey {α β : Type} [DecidableEq α] (k : α) (f : β → β) : List (α × β) → List (α × β)
  | [] => []
  | (k', v') :: rest => if k' = k then (k', f v') :: rest else (k', v') :: updateKey k f rest

theorem lookupKey_setKey_self {α β : Type} [DecidableEq α] (k : α) (v : β)
    (l : List (α × β)) : lookupKey k (setKey k v l) = some v := by
  induction l with
  | nil => simp [setKey, lookupKey]
  | cons hd tl ih =>
    obtain ⟨k', v'⟩ := hd
    by_cases h : k' = k <;> simp [setKey, lookupKey, h, ih]

theorem lookupKey_setKey_ne {α β : Type} [DecidableEq α] {k k' : α} (h : k' ≠ k)
    (v : β) (l : List (α × β)) : lookupKey k' (setKey k v l) = lookupKey k' l := by
  induction l with
  | nil => simp [setKey, lookupKey, Ne.symm h]
  | cons hd tl ih =>
    obtain ⟨k₀, v₀⟩ := hd
    by_cases h₀ : k₀ = k
    · subst h₀
      simp [setKey, lookupKey, Ne.symm h]
    · by_cases h₁ : k₀ = k' <;> simp [setKey, lookupKey, h₀, h₁, Ne.symm h, h, ih]

theorem lookupKey_updateKey_self {α β : Type} [DecidableEq α] (k : α) (f : β → β)
    (l : List (α × β)) : lookupKey k (updateKey k f l) = (lookupKey k l).map f := by
  induction l with
  | nil => simp [updateKey, lookupKey]
  | cons hd tl ih =>
    obtain ⟨k', v'⟩ := hd
    by_cases h : k' = k <;> simp [updateKey, lookupKey, h, ih]

theorem lookupKey_updateKey_ne {α β : Type} [DecidableEq α] {k k' : α} (h : k' ≠ k)
    (f : β → β) (l : List (α × β)) : lookupKey k' (updateKey k f l) = lookupKey k' l := by
  induction l with
  | nil => simp [updateKey, lookupKey]
  | cons hd tl ih =>
    obtain ⟨k₀, v₀⟩ := hd
    by_cases h₀ : k₀ = k
    · subst h₀
      simp [updateKey, lookupKey, Ne.symm h, ih]
    · by_cases h₁ : k₀ = k' <;> simp [updateKey, lookupKey, h₀, h₁, Ne.symm h, h, ih]

theorem lookupKey_none_not_mem {α β : Type} [DecidableEq α] {k : α} {l : List (α × β)}
    (h : lookupKey k l = none) (v : β) : (k, v) ∉ l := by
  induction l with
  | nil => simp
  | cons hd tl ih =>
    obtain ⟨k₀, v₀⟩ := hd
    by_cases h₀ : k₀ = k
    · simp [lookupKey, h₀] at h
    · simp only [lookupKey, if_neg h₀] at h
      intro hmem
      rcases List.mem_cons.mp hmem with hc | hc
      · exact h₀ (congrArg Prod.fst hc).symm
      · exact ih h hc

theorem mem_setKey {α β : Type} [DecidableEq α] {k : α} {v : β} {pr : α × β}
    {l : List (α × β)} (hmem : pr ∈ setKey k v l) : pr = (k, v) ∨ pr ∈ l := by
  induction l with
  | nil => simp only [setKey, List.mem_singleton] at hmem; exact Or.inl hmem
  | cons hd tl ih =>
    obtain ⟨k₀, v₀⟩ := hd
    by_cases h₀ : k₀ = k
    · simp only [setKey, if_pos h₀, List.mem_cons] at hmem
      rcases hmem with hc | hc
      · exact Or.inl hc
      · exact Or.inr (List.mem_cons_of_mem _ hc)
    · simp only [setKey, if_neg h₀, List.mem_cons] at hmem
      rcases hmem with hc | hc
      · exact Or.inr (hc ▸ List.mem_cons_self _ _)
      · rcases ih hc with hc' | hc'
        · exact Or.inl hc'
        · exact Or.inr (List.mem_cons_of_mem _ hc')

theorem mem_updateKey {α β : Type} [DecidableEq α] {k : α} {f : β → β} {pr : α × β}
    {l : List (α × β)} (hmem : pr ∈ updateKey k f l) :
    pr ∈ l ∨ ∃ v, (k, v) ∈ l ∧ pr = (k, f v) := by
  induction l with
  | nil => simp [updateKey] at hmem
  | cons hd tl ih =>
    obtain ⟨k₀, v₀⟩ := hd
    by_cases h₀ : k₀ = k
    · subst h₀
      simp only [updateKey, eq_self_iff_true, if_true, List.mem_cons] at hmem
      rcases hmem with hc | hc
      · exact Or.inr ⟨v₀, List.mem_cons_self _ _, hc⟩
      · exact Or.inl (List.mem_cons_of_mem _ hc)
    · simp only [updateKey, if_neg h₀, List.mem_cons] at hmem
      rcases hmem with hc | hc
      · exact Or.inl (hc ▸ List.mem_cons_self _ _)
      · rcases ih hc with hc' | ⟨v', hv', hpr⟩
        · exact Or.inl (List.mem_cons_of_mem _ hc')
        · exact Or.inr ⟨v', List.mem_cons_of_mem _ hv', hpr⟩

theorem isSome_lookupKey_updateKey {α β : Type} [DecidableEq α] (k k' : α) (f : β → β)
    (l : List (α × β)) :
    (lookupKey k' (updateKey k f l)).isSome = (lookupKey k' l).isSome := by
  by_cases h : k' = k
  · subst h
    rw [lookupKey_updateKey_self]
    cases lookupKey k' l <;> simp
  · rw [lookupKey_updateKey_ne h]

/-! ## Time model

Instants and durations are `Int` nanoseconds (Go `time.Time` / `time.Duration`). -/

def millisecond : Int := 1000000
def second : Int := 1000000000
def minute : Int := 60000000000

/-- Modelled from the spec: `nextTimeBoundary` is repository code not under
`src/` (only its callers are). Spec §4.3: "the closing boundary function
`nextBoundary(now, W)` returns the smallest instant `> now` that is an integer
multiple of `W` from the epoch." -/
def nextTimeBoundary (now w : Int) : Int := (now / w + 1) * w

/-! ## Configuration (`config.RollupDef`, rollup priority) -/

inductive Method
  | average
  | max
  | min
  | sum
deriving DecidableEq, Repr

/-- One entry of `config.RollupDef.Windows`. Durations in nanoseconds. -/
structure Window where
  window : Int
  retention : Int
  table : String
deriving DecidableEq, Repr

/-- `config.RollupDef`. The path-matching regular expression is embedded as a
boolean oracle `matchPath`. -/
structure RollupDef where
  method : Method
  windows : List Window
  matchPath : String → Bool

structure Config where
  rollupPriority : List String
  rollup : List (String × RollupDef)
  catchall : String

/-- Windows of an expression; a missing key gives the Go zero value (nil slice). -/
def windowsOf (cfg : Config) (expr : String) : List Window :=
  match lookupKey expr cfg.rollup with
  | some d => d.windows
  | none => []

/-- Aggregation method of an expression (missing key: Go zero value, AVERAGE). -/
def methodOf (cfg : Config) (expr : String) : Method :=
  match lookupKey expr cfg.rollup with
  | some d => d.method
  | none => .average

/-- `sm.rollup[expr].Expression.MatchString(path)`: the match oracle of the
expression's compiled regex (missing key: Go zero value, never matching). -/
def matchOf (cfg : Config) (expr path : String) : Bool :=
  match lookupKey expr cfg.rollup with
  | some d => d.matchPath path
  | none => false

/-- Inner loop of `getExpression`: the Go `for _, expr = range sm.rollupPriority`
leaves the last assigned value in `expr` when no non-catchall expression matches. -/
def getExprLoop (cfg : Config) (path : String) : List String → String → String
  | [], last => last
  | e :: rest, _ =>
    if e ≠ cfg.catchall ∧ matchOf cfg e path then e
    else getExprLoop cfg path rest e

/-- `StoreManager.getExpression`: first expression in priority order whose
regex matches the path; the catchall, always last, is the default. -/
def getExpression (cfg : Config) (path : String) : String :=
  getExprLoop cfg path cfg.rollupPriority ""

/-! ## Store manager state -/

/-- `rollup`: accumulated metrics data for one path. -/
structure Rollup where
  expr : String
  count : List Nat
  value : List ℚ
deriving DecidableEq, Repr

/-- `runlist`: write deadlines and the path → rollup map for one expression.
The map stores heap ids standing for Go's `*rollup` pointers. -/
structure Runlist where
  nextWriteTime : List Int
  path : List (String × Nat)
deriving DecidableEq, Repr

/-- The mutable rollup state of `StoreManager`, with an explicit heap realizing
Go's shared `*rollup` pointers. -/
structure SMState where
  byPath : List (String × Nat)
  byExpr : List (String × Runlist)
  heap : List (Nat × Rollup)
  nextId : Nat
deriving DecidableEq, Repr

/-- `StoreManager.resetRollupData`. -/
def resetRollupData (cfg : Config) (baseTime : Int) : SMState :=
  { byPath := []
    byExpr := cfg.rollup.map fun ed =>
      (ed.1, { nextWriteTime := ed.2.windows.map fun w => nextTimeBoundary baseTime w.window
               path := [] })
    heap := []
    nextId := 0 }

/-! ## Accumulator -/

/-- `config.CarbonMetric`. -/
structure Metric where
  path : String
  value : ℚ
  timestamp : ℚ
deriving DecidableEq, Repr

/-- One bucket update of `accumulate`'s method switch, reading the bucket's
pre-update count. -/
def foldValue (m : Method) (x : ℚ) (c : Nat) (v : ℚ) : ℚ :=
  match m with
  | .average => (v * (c : ℚ) + x) / ((c : ℚ) + 1)
  | .max => if v < x then x else v
  | .min => if v > x ∨ c = 0 then x else v
  | .sum => v + x

/-- The whole per-rollup part of `accumulate`: the method switch over every
window bucket, then `count[i]++` for every window. -/
def foldRollup (m : Method) (x : ℚ) (r : Rollup) : Rollup :=
  { r with
    value := List.zipWith (fun v c => foldValue m x c v) r.value r.count
    count := r.count.map (· + 1) }

/-- `StoreManager.accumulate`. Returns the new state together with the
metrics sent on the index-store channel (`config.G.Channels.IndexStore`). -/
def accumulate (cfg : Config) (m : Metric) (s : SMState) : SMState × List Metric :=
  match lookupKey m.path s.byPath with
  | some id =>
    ({ s with
        heap := updateKey id (fun r => foldRollup (methodOf cfg r.expr) m.value r) s.heap },
     [])
  | none =>
    let expr := getExpression cfg m.path
    let n := (windowsOf cfg expr).length
    let id := s.nextId
    let r0 : Rollup := { expr := expr, count := List.replicate n 0, value := List.replicate n 0 }
    let s1 : SMState :=
      { byPath := setKey m.path id s.byPath
        byExpr := updateKey expr (fun rl => { rl with path := setKey m.path id rl.path }) s.byExpr
        heap := setKey id r0 s.heap
        nextId := id + 1 }
    ({ s1 with
        heap := updateKey id (fun r => foldRollup (methodOf cfg r.expr) m.value r) s1.heap },
     [m])

/-! ## Flusher

The batch writer (`batchWriter`, repository code not under `src/`) is, per
spec §4.3, a pure grouping of appended rows into size-limited writes: it does
not change which rows are written, their timestamps or their values. The
embedding therefore returns the appended rows directly; write errors (logged
and dropped in Go) do not alter the row stream either. -/

/-- One row handed to `bw.Append`: table, path, statTime, value. -/
structure Row where
  table : String
  path : String
  statTime : Int
  value : ℚ
deriving DecidableEq, Repr

/-- Zero a rollup's bucket `i`, as `flush` does after (maybe) emitting it:
`rollup.count[i] = 0; rollup.value[i] = 0`. -/
def zeroAt (i : Nat) (r : Rollup) : Rollup :=
  { r with count := r.count.set i 0, value := r.value.set i 0 }

/-- The inner path loop of `flush` for one `(expr, window)` pair: emit every
bucket with `count[i] > 0`, then unconditionally clear the bucket. -/
def flushPaths (table : String) (statTime : Int) (i : Nat) :
    List (String × Nat) → List (Nat × Rollup) → List (Nat × Rollup) × List Row
  | [], heap => (heap, [])
  | (p, id) :: rest, heap =>
    match lookupKey id heap with
    | none => flushPaths table statTime i rest heap
    | some r =>
      let rows := if 0 < r.count.getD i 0 then
          [{ table := table, path := p, statTime := statTime, value := r.value.getD i 0 }]
        else []
      let heap' := updateKey id (zeroAt i) heap
      let out := flushPaths table statTime i rest heap'
      (out.1, rows ++ out.2)

/-- The window loop of `flush` for one expression: process each window whose
boundary has passed (or every window when terminating), restamp its next
write time, and lower the pending `nextFlush`. -/
def flushWindows (windows : List Window) (terminating : Bool) (baseTime : Int)
    (entries : List (String × Nat)) :
    Nat → List Int → List (Nat × Rollup) → Int →
    List Int × List (Nat × Rollup) × List Row × Int
  | _, [], heap, nextFlush => ([], heap, [], nextFlush)
  | i, windowEnd :: rest, heap, nextFlush =>
    let w := windows.getD i { window := 0, retention := 0, table := "" }
    if windowEnd < baseTime ∨ terminating then
      let statTime := if terminating then baseTime else windowEnd
      let out := flushPaths w.table statTime i entries heap
      let nwt := nextTimeBoundary baseTime w.window
      let nextFlush' := if nwt < nextFlush then nwt else nextFlush
      let fw2 := flushWindows windows terminating baseTime entries (i + 1) rest out.1 nextFlush'
      (nwt :: fw2.1, fw2.2.1, out.2 ++ fw2.2.2.1, fw2.2.2.2)
    else
      let nextFlush' := if windowEnd < nextFlush then windowEnd else nextFlush
      let fw2 := flushWindows windows terminating baseTime entries (i + 1) rest heap nextFlush'
      (windowEnd :: fw2.1, fw2.2.1, fw2.2.2.1, fw2.2.2.2)

/-- The outer expression loop of `flush`. -/
def flushExprs (cfg : Config) (terminating : Bool) (baseTime : Int) :
    List (String × Runlist) → List (Nat × Rollup) → Int →
    List (String × Runlist) × List (Nat × Rollup) × List Row × Int
  | [], heap, nextFlush => ([], heap, [], nextFlush)
  | (e, rl) :: rest, heap, nextFlush =>
    let out := flushWindows (windowsOf cfg e) terminating baseTime rl.path
      0 rl.nextWriteTime heap nextFlush
    let fw2 := flushExprs cfg terminating baseTime rest out.2.1 out.2.2.2
    ((e, { nextWriteTime := out.1, path := rl.path }) :: fw2.1,
     fw2.2.1, out.2.2.1 ++ fw2.2.2.1, fw2.2.2.2)

/-- `StoreManager.flush`. `baseTime` is the call's single `time.Now()`
snapshot. Returns the new state, the rows appended to the batch writer, and
the duration offered to the timer channel (`none` when terminating; the Go
send is non-blocking, a full channel drops the value). -/
def flush (cfg : Config) (terminating : Bool) (baseTime : Int) (s : SMState) :
    SMState × List Row × Option Int :=
  let nextFlush := baseTime + minute
  let out := flushExprs cfg terminating baseTime s.byExpr s.heap nextFlush
  let delay : Option Int :=
    if terminating then none
    else some (if out.2.2.2 - baseTime < 0 then millisecond else out.2.2.2 - baseTime)
  ({ s with byExpr := out.1, heap := out.2.1 }, out.2.2.1, delay)

/-! ## Query (read) worker: `StoreManager.queryGET`

The Cassandra session is an oracle `db : String → String → List ℚ` giving the
stats returned by `SELECT stat FROM <ks>.<table> WHERE path = ? AND time >= ?
AND time <= ?` for a (table, path) pair; `from`/`to` are the same for every
path of one request, so they are left inside the oracle. -/

inductive AQStatus
  | ok
  | badRequest
deriving DecidableEq, Repr

/-- The `MetricResponse` JSON body (`{from, to, step, series}`). -/
structure MetricResp where
  fromEpoch : Int
  toEpoch : Int
  step : Int
  series : List (String × List ℚ)
deriving DecidableEq, Repr

/-- `config.APIQueryResponse` `{status, message, payload}`; the payload is the
parsed JSON body, `none` standing for the empty `[]byte{}` payload. -/
structure APIQueryResponse where
  status : AQStatus
  message : String
  payload : Option MetricResp
deriving DecidableEq, Repr

/-- `config.MetricQuery` (the GET fields). `fromEpoch`/`toEpoch` are epoch
seconds, as in the Go struct. -/
structure MetricQuery where
  fromEpoch : Int
  toEpoch : Int
  query : List String
deriving DecidableEq, Repr

/-- The window-selection loop of `queryGET`: first window (declaration order)
with `timeDelta < window.Retention`. -/
def chooseWindow (cfg : Config) (timeDelta : Int) (path : String) : Option Window :=
  (windowsOf cfg (getExpression cfg path)).find? fun w => timeDelta < w.retention

/-- The per-path loop of `queryGET`. Faithfully threads the three loop-carried
variables of the Go code: `table` and `step` (only overwritten when a window
matches) and `statList`, which the Go code never resets between paths.
Returns the series map, the issued `(table, path)` SELECTs in order, and the
final `step`. -/
def queryLoop (cfg : Config) (db : String → String → List ℚ) (timeDelta : Int) :
    List String → String → Int → List ℚ → List (String × List ℚ) →
    List (String × List ℚ) × List (String × String) × Int
  | [], _, step, _, series => (series, [], step)
  | p :: rest, table, step, statList, series =>
    let ts : String × Int :=
      match chooseWindow cfg timeDelta p with
      | some w => (w.table, w.window / second)
      | none => (table, step)
    let statList' := statList ++ db ts.1 p
    let series' := setKey p statList' series
    let out := queryLoop cfg db timeDelta rest ts.1 ts.2 statList' series'
    (out.1, (ts.1, p) :: out.2.1, out.2.2)

/-- The guard `len(q.Query) == 0 || q.Query[0] == ""` of `queryGET`. -/
def noQuery (l : List String) : Bool :=
  match l with
  | [] => true
  | x :: _ => x == ""

/-- `StoreManager.queryGET` at instant `now`
(`timeDelta = time.Since(time.Unix(q.From, 0))`). Returns the response
envelope written to `q.Channel` and the SELECTs issued against the store. -/
def queryGET (cfg : Config) (db : String → String → List ℚ) (now : Int)
    (q : MetricQuery) : APIQueryResponse × List (String × String) :=
  if noQuery q.query then
    ({ status := .badRequest, message := "no query specified", payload := none }, [])
  else
    let timeDelta := now - q.fromEpoch * second
    let out := queryLoop cfg db timeDelta q.query "" 0 [] []
    ({ status := .ok, message := ""
       payload := some { fromEpoch := q.fromEpoch, toEpoch := q.toEpoch
                         step := out.2.2, series := out.1 } },
     out.2.1)

/-! ## Path resolver: `StatPathGopher`

The Redis `ZRANGEBYLEX` scan is an oracle
`zr : String → String → Except Unit (List String)` (min, max ↦ members or
error). Regex compilation+matching for `complexWild` is an oracle
`rex : String → Option (String → Bool)` (`none` = compile error). A returned
`[]byte` is represented by `GopherResult`: `nilBytes` for Go's `return nil`,
`serialized l` for `json.Marshal` of the response list, and `panicked` for a
run that panics (out-of-range indexing on a malformed member). -/

/-- The gopher's `MetricResponse` JSON element. -/
structure PathEntry where
  path : String
  depth : Int
  tenant : String
  leaf : Bool
deriving DecidableEq, Repr

inductive GopherResult
  | panicked
  | nilBytes
  | serialized (l : List PathEntry)
deriving DecidableEq, Repr

/-- Modelled from the spec: `ToBigEndianString` is repository code not under
`src/`. Spec §3: the depth is "a fixed-width big-endian decimal string (so
lexicographic order = numeric order)"; width fixed here at 4. -/
def ToBigEndianString (l : Int) : String :=
  let s := toString l
  String.mk (List.replicate (4 - s.length) '0') ++ s

/-- `strconv.ParseBool`, with the gopher's error handling folded in: an
unparseable string leaves `isLeaf` at `false`. -/
def parseBoolD (s : String) : Bool :=
  s == "1" || s == "t" || s == "T" || s == "TRUE" || s == "true" || s == "True"

/-- `StatPathGopher.getMax`: upper bound of the lexicographic range. The Go
source appends the raw (backquoted) text `\xff`, and before a trailing `.` or
`:` inserts a literal backslash. -/
def getMax (s : String) : String :=
  if s.takeRight 1 = "." ∨ s.takeRight 1 = ":" then
    s.dropRight 1 ++ "\\" ++ s.takeRight 1 ++ "\\xff"
  else
    s ++ "\\xff"

/-- `StatPathGopher.processQueryResults`: split each member on `:` and build
`{path, depth, tenant, leaf}`. Go indexes `decodedString[1]` and
`decodedString[2]`, which panics when a member has fewer than three fields. -/
def processQueryResults (results : List String) (l : Int) : GopherResult :=
  go results []
where
  go : List String → List PathEntry → GopherResult
    | [], acc => .serialized acc.reverse
    | m :: rest, acc =>
      match m.splitOn ":" with
      | _ :: p :: lf :: _ =>
        go rest ({ path := p, depth := l, tenant := "", leaf := parseBoolD lf } :: acc)
      | _ => .panicked

/-- Range lower bound built by `simpleWild`. -/
def simpleLo (q : String) (l : Int) : String :=
  "[" ++ ToBigEndianString l ++ ":" ++ q

/-- Range lower bound built by `noWild` (trailing `:` forces an exact node). -/
def noWildLo (q : String) (l : Int) : String :=
  "[" ++ ToBigEndianString l ++ ":" ++ q ++ ":"

/-- Range lower bound built by `complexWild` from the first literal piece. -/
def complexLo (splitWild : List String) (l : Int) : String :=
  "[" ++ ToBigEndianString l ++ ":" ++ splitWild.headD ""

/-- `StatPathGopher.simpleWild` (trailing-wildcard lookup). -/
def simpleWild (zr : String → String → Except Unit (List String))
    (q : String) (l : Int) : GopherResult :=
  match zr (simpleLo q l) (getMax (simpleLo q l)) with
  | .error _ => .nilBytes
  | .ok resp => if resp.isEmpty then .nilBytes else processQueryResults resp l

/-- `StatPathGopher.noWild` (exact lookup). -/
def noWild (zr : String → String → Except Unit (List String))
    (q : String) (l : Int) : GopherResult :=
  match zr (noWildLo q l) (getMax (noWildLo q l)) with
  | .error _ => .nilBytes
  | .ok resp => if resp.isEmpty then .nilBytes else processQueryResults resp l

/-- `StatPathGopher.complexWild` (multi-wildcard lookup): range scan on the
first literal piece, then filter by the regex joining the pieces with `.*`. -/
def complexWild (zr : String → String → Except Unit (List String))
    (rex : String → Option (String → Bool))
    (splitWild : List String) (l : Int) : GopherResult :=
  match zr (complexLo splitWild l) (getMax (complexLo splitWild l)) with
  | .error _ => .nilBytes
  | .ok resp =>
    if resp.isEmpty then .nilBytes
    else
      let rawRegex := String.intercalate ".*" splitWild
      match rex rawRegex with
      | none => .nilBytes
      | some matchesRx => processQueryResults (resp.filter matchesRx) l

/-! ## The two-level indexing invariant (spec §3, §8)

`smInv` is the decidable statement that a path is a key of `byPath` exactly
when some expression's run list holds it, and that both views store the same
rollup id (hence, through the heap, the same mutable rollup object). -/

/-- The `(expression, paths-map)` view of `byExpr`. -/
def pathViews (byExpr : List (String × Runlist)) : List (String × List (String × Nat)) :=
  byExpr.map fun er => (er.1, er.2.path)

/-- The rollup id recorded for `p` in the first run list containing it. -/
def findView (views : List (String × List (String × Nat))) (p : String) : Option Nat :=
  views.findSome? fun ev => lookupKey p ev.2

/-- Two-level indexing invariant: every `byPath` binding appears in a run
list with the same id, and every run-list binding appears in `byPath` with
the same id. -/
def smInv (s : SMState) : Bool :=
  s.byPath.all (fun pr => findView (pathViews s.byExpr) pr.1 == some pr.2) &&
  (pathViews s.byExpr).all fun ev => ev.2.all fun pr => lookupKey pr.1 s.byPath == some pr.2

/-- All rollup ids recorded in run lists, across all expressions. -/
def runIds (s : SMState) : List Nat :=
  (s.byExpr.map fun er => er.2.path.map Prod.snd).flatten

/-- Count of bucket `i` of the rollup at heap id `id` (0 when absent). -/
def heapCountAt (heap : List (Nat × Rollup)) (id i : Nat) : Nat :=
  match lookupKey id heap with
  | some r => r.count.getD i 0
  | none => 0

/-- Value of bucket `i` of the rollup at heap id `id` (0 when absent). -/
def heapValueAt (heap : List (Nat × Rollup)) (id i : Nat) : ℚ :=
  match lookupKey id heap with
  | some r => r.value.getD i 0
  | none => 0

/-! ## Concrete fixtures used by witnesses and counterexamples -/

/-- A rollup definition whose regex matches every path. -/
def sumAllDef : RollupDef :=
  { method := .sum
    windows := [{ window := 10 * second, retention := 60 * second, table := "rollup_60" }]
    matchPath := fun _ => true }

/-- One-expression configuration. -/
def cfgOne : Config :=
  { rollupPriority := ["e"], rollup := [("e", sumAllDef)], catchall := "CATCHALL" }

/-- A state whose single window boundary is exactly `10 * second`. -/
def stateAtBoundary : SMState :=
  { byPath := []
    byExpr := [("e", { nextWriteTime := [10 * second], path := [] })]
    heap := []
    nextId := 0 }

/-! ## C10: bad-query-shape rejection -/

/-- C10: `queryGET` answers the `AQS_BADREQUEST` envelope with message
"no query specified" and issues no SELECT precisely when the query path
list is empty or its first element is the empty string; in particular an
empty string at a later position is not rejected. -/
theorem queryGET_badRequest_iff (cfg : Config) (db : String → String → List ℚ)
    (now : Int) (q : MetricQuery) :
    ((queryGET cfg db now q).1.status = .badRequest ∧
        (queryGET cfg db now q).1.message = "no query specified" ∧
        (queryGET cfg db now q).2 = []) ↔
      (q.query = [] ∨ q.query.head? = some "") := by
  rcases hq : q.query with _ | ⟨x, rest⟩
  · simp [queryGET, noQuery, hq]
  · by_cases hx : x = ""
    · subst hx
      simp [queryGET, noQuery, hq]
    · simp [queryGET, noQuery, hq, hx, queryLoop]

/-! ## C8: first-sight index-write emission -/

/-- C8: `accumulate` sends the sample on the index-write channel exactly once
when its path is absent from `byPath` at call start, and sends nothing when
the path is present. The hypothesis pins the run list of the classified
expression to exist, which `resetRollupData` guarantees (the Go code would
panic on a nil map otherwise). -/
theorem accumulate_indexStore_emission (cfg : Config) (m : Metric) (s : SMState)
    (_hwf : lookupKey m.path s.byPath = none →
      (lookupKey (getExpression cfg m.path) s.byExpr).isSome) :
    (accumulate cfg m s).2 =
      if lookupKey m.path s.byPath = none then [m] else [] := by
  rcases h : lookupKey m.path s.byPath with _ | id <;> simp [accumulate, h]

/-- Witness for C8 at a concrete first-sight sample. -/
theorem accumulate_indexStore_emission_witness :
    (accumulate cfgOne { path := "a.b", value := 7, timestamp := 0 }
        (resetRollupData cfgOne 0)).2 =
      if lookupKey "a.b" (resetRollupData cfgOne 0).byPath = none
      then [{ path := "a.b", value := 7, timestamp := 0 }] else [] :=
  accumulate_indexStore_emission cfgOne _ _ (by decide)

/-! ## C5: the accumulate folding formulas -/

/-- `foldValue` written with the spec's formulas. -/
theorem foldValue_formulas (m : Method) (x : ℚ) (c : Nat) (v : ℚ) :
    foldValue m x c v =
      match m with
      | .average => (v * (c : ℚ) + x) / ((c : ℚ) + 1)
      | .max => max v x
      | .min => if c = 0 ∨ x < v then x else v
      | .sum => v + x := by
  cases m with
  | average => rfl
  | sum => rfl
  | max =>
    simp only [foldValue]
    rcases lt_or_ge v x with h | h
    · rw [if_pos h, max_eq_right h.le]
    · rw [if_neg (not_lt.mpr h), max_eq_left h]
  | min =>
    simp only [foldValue, gt_iff_lt, or_comm]

/-- C5: applying a sample to a rollup through `accumulate` updates every
window bucket by the expression's method — AVERAGE to the running mean, MIN
to the smaller (seeding an empty bucket), MAX to the larger, SUM to the sum —
and increments every bucket count by exactly one. -/
theorem accumulate_bucket_update (cfg : Config) (m : Metric) (s : SMState)
    (id : Nat) (r : Rollup) (i : Nat)
    (hpath : lookupKey m.path s.byPath = some id)
    (hheap : lookupKey id s.heap = some r)
    (hlen : r.count.length = r.value.length)
    (hi : i < r.value.length) :
    lookupKey id (accumulate cfg m s).1.heap =
      some (foldRollup (methodOf cfg r.expr) m.value r) ∧
    (foldRollup (methodOf cfg r.expr) m.value r).count.getD i 0 =
      r.count.getD i 0 + 1 ∧
    (foldRollup (methodOf cfg r.expr) m.value r).value.getD i 0 =
      (match methodOf cfg r.expr with
       | .average => (r.value.getD i 0 * (r.count.getD i 0 : ℚ) + m.value) /
           ((r.count.getD i 0 : ℚ) + 1)
       | .max => max (r.value.getD i 0) m.value
       | .min => if r.count.getD i 0 = 0 ∨ m.value < r.value.getD i 0
           then m.value else r.value.getD i 0
       | .sum => r.value.getD i 0 + m.value) := by
  have hic : i < r.count.length := hlen ▸ hi
  refine ⟨?_, ?_, ?_⟩
  · simp [accumulate, hpath, lookupKey_updateKey_self, hheap]
  · simp [foldRollup, List.getD_eq_getElem?_getD, List.getElem?_map,
      List.getElem?_eq_getElem hic]
  · have hz : (List.zipWith (fun v c => foldValue (methodOf cfg r.expr) m.value c v)
        r.value r.count)[i]? =
        some (foldValue (methodOf cfg r.expr) m.value (r.count.get ⟨i, hic⟩)
          (r.value.get ⟨i, hi⟩)) := by
      rw [List.getElem?_zipWith]
      simp [List.getElem?_eq_getElem, hi, hic]
    simp only [foldRollup, List.getD_eq_getElem?_getD, hz, Option.getD_some,
      foldValue_formulas]
    simp [List.getD_eq_getElem?_getD, List.getElem?_eq_getElem, hi, hic]

/-- Witness for C5 on a concrete rollup. -/
theorem accumulate_bucket_update_witness :
    lookupKey 0 (accumulate cfgOne { path := "a.b", value := 3, timestamp := 0 }
        { byPath := [("a.b", 0)]
          byExpr := [("e", { nextWriteTime := [10 * second], path := [("a.b", 0)] })]
          heap := [(0, { expr := "e", count := [2], value := [5] })]
          nextId := 1 }).1.heap =
      some (foldRollup (methodOf cfgOne "e") 3 { expr := "e", count := [2], value := [5] }) ∧
    (foldRollup (methodOf cfgOne "e") 3
        { expr := "e", count := [2], value := [5] }).count.getD 0 0 = 2 + 1 ∧
    (foldRollup (methodOf cfgOne "e") 3
        { expr := "e", count := [2], value := [5] }).value.getD 0 0 =
      (match methodOf cfgOne "e" with
       | .average => ((5 : ℚ) * ((2 : Nat) : ℚ) + 3) / (((2 : Nat) : ℚ) + 1)
       | .max => max 5 3
       | .min => if (2 : Nat) = 0 ∨ (3 : ℚ) < 5 then 3 else 5
       | .sum => 5 + 3) := by
  have h := accumulate_bucket_update cfgOne
    { path := "a.b", value := 3, timestamp := 0 }
    { byPath := [("a.b", 0)]
      byExpr := [("e", { nextWriteTime := [10 * second], path := [("a.b", 0)] })]
      heap := [(0, { expr := "e", count := [2], value := [5] })]
      nextId := 1 }
    0 { expr := "e", count := [2], value := [5] } 0
    (by decide) (by decide) (by decide) (by decide)
  simpa using h

/-! ## C2: rollup table / step selection in queryGET -/

/-- The window selection as the spec words it: first window (declaration
order) whose `retention ≥ timeDelta`. Compare `chooseWindow`, embedded from
the source, which requires `timeDelta < retention` strictly. -/
def chooseWindowSpec (cfg : Config) (timeDelta : Int) (path : String) : Option Window :=
  (windowsOf cfg (getExpression cfg path)).find? fun w => timeDelta ≤ w.retention

/-- Two-window configuration separating the two selection rules at
`timeDelta = 60 s`. -/
def cfgTwoWin : Config :=
  { rollupPriority := ["e"]
    rollup := [("e",
      { method := .sum
        windows := [{ window := 10 * second, retention := 60 * second, table := "rollup_60" },
                    { window := 60 * second, retention := 3600 * second, table := "rollup_3600" }]
        matchPath := fun _ => true })]
    catchall := "CATCHALL" }

/-- Counterexample to C2 as stated: with windows `[(10s,60s),(60s,3600s)]`
and `timeDelta = 60 s`, the first window has `retention ≥ timeDelta`, so the
claim demands table `rollup_60`; the code's strict test skips it and the
issued SELECT uses `rollup_3600`. -/
theorem queryGET_selection_counterexample :
    chooseWindowSpec cfgTwoWin (60 * second) "a" =
      some { window := 10 * second, retention := 60 * second, table := "rollup_60" } ∧
    (queryGET cfgTwoWin (fun _ _ => []) (60 * second)
        { fromEpoch := 0, toEpoch := 0, query := ["a"] }).2 =
      [("rollup_3600", "a")] ∧
    ("rollup_3600" : String) ≠ "rollup_60" := by
  decide

theorem queryLoop_selection (cfg : Config) (db : String → String → List ℚ)
    (td : Int) :
    ∀ (paths : List String) (table : String) (step : Int) (statList : List ℚ)
      (series : List (String × List ℚ)) (j : Nat) (p : String) (w : Window),
      paths[j]? = some p →
      chooseWindow cfg td p = some w →
      (queryLoop cfg db td paths table step statList series).2.1[j]? =
          some (w.table, p) ∧
        (j + 1 = paths.length →
          (queryLoop cfg db td paths table step statList series).2.2 =
            w.window / second) := by
  intro paths
  induction paths with
  | nil =>
    intro _ _ _ _ j p w hj
    simp at hj
  | cons q rest ih =>
    intro table step statList series j p w hj hw
    cases j with
    | zero =>
      rw [List.getElem?_cons_zero, Option.some_inj] at hj
      subst hj
      refine ⟨by simp [queryLoop, hw], fun hlen => ?_⟩
      have hrest : rest = [] := by
        simp only [List.length_cons, Nat.add_right_cancel_iff] at hlen
        exact List.eq_nil_of_length_eq_zero hlen.symm
      subst hrest
      simp [queryLoop, hw]
    | succ j' =>
      rw [List.getElem?_cons_succ] at hj
      refine ⟨?_, fun hlen => ?_⟩
      · simp only [queryLoop, List.getElem?_cons_succ]
        exact (ih _ _ _ _ j' p w hj hw).1
      · simp only [queryLoop]
        exact (ih _ _ _ _ j' p w hj hw).2 (by simpa [List.length_cons] using hlen)

/-- C2 amended: for every path of a well-formed queryGET request, the table
of the issued SELECT and the step are taken from the first window of the
path's classified expression whose retention is strictly greater than
`timeDelta = now - from` (the response's single `step` field reflects the
last path's selection). -/
theorem queryGET_table_selection (cfg : Config) (db : String → String → List ℚ)
    (now : Int) (q : MetricQuery) (j : Nat) (p : String) (w : Window)
    (hshape : noQuery q.query = false)
    (hj : q.query[j]? = some p)
    (hw : chooseWindow cfg (now - q.fromEpoch * second) p = some w) :
    (queryGET cfg db now q).2[j]? = some (w.table, p) ∧
      (j + 1 = q.query.length →
        ((queryGET cfg db now q).1.payload.map MetricResp.step) =
          some (w.window / second)) := by
  have h := queryLoop_selection cfg db (now - q.fromEpoch * second)
    q.query "" 0 [] [] j p w hj hw
  refine ⟨?_, fun hlen => ?_⟩
  · simpa [queryGET, hshape] using h.1
  · simp [queryGET, hshape, h.2 hlen]

/-- Witness for C2's amended statement on a one-path request. -/
theorem queryGET_table_selection_witness :
    (queryGET cfgTwoWin (fun _ _ => []) second
        { fromEpoch := 0, toEpoch := 0, query := ["a"] }).2[0]? =
      some ("rollup_60", "a") ∧
      (0 + 1 = ({ fromEpoch := 0, toEpoch := 0, query := ["a"] } : MetricQuery).query.length →
        ((queryGET cfgTwoWin (fun _ _ => []) second
            { fromEpoch := 0, toEpoch := 0, query := ["a"] }).1.payload.map MetricResp.step) =
          some (10 * second / second)) :=
  queryGET_table_selection cfgTwoWin (fun _ _ => []) second
    { fromEpoch := 0, toEpoch := 0, query := ["a"] } 0 "a"
    { window := 10 * second, retention := 60 * second, table := "rollup_60" }
    (by decide) (by decide) (by decide)

/-! ## C3: series cross-talk between paths of one request -/

/-- Store oracle: path `a` has the single stat 1, path `b` the single stat 2. -/
def dbCross : String → String → List ℚ :=
  fun _ p => if p = "a" then [1] else if p = "b" then [2] else []

/-- C3 failing input: the Go code never resets `statList` between paths, so
the series entry for `b` contains `a`'s stat as well — the code returns
`series = {a: [1], b: [1, 2]}` where the claim requires `b: [2]`. -/
theorem queryGET_series_crosstalk :
    (queryGET cfgOne dbCross second
        { fromEpoch := 0, toEpoch := 0, query := ["a", "b"] }).1.payload =
      some { fromEpoch := 0, toEpoch := 0, step := 10
             series := [("a", [1]), ("b", [1, 2])] } := by
  decide

/-! ## C9: the rescheduling delay computed by flush(false) -/

/-- Counterexample to C9 as stated: when a window boundary equals `baseTime`
the computed `nextFlush` equals `baseTime`, the difference is 0 — not
negative, so the sanity check does not raise it — and the submitted delay is
0, not `max(nextFlush - baseTime, 1 ms) = 1 ms`. -/
theorem flush_delay_counterexample :
    (flush cfgOne false (10 * second) stateAtBoundary).2.2 = some 0 ∧
      some (0 : Int) ≠ some millisecond := by
  decide

theorem min_comm_flip (a b : Int) : (if b < a then b else a) = min a b := by
  rcases lt_or_ge b a with h | h
  · rw [if_pos h, min_eq_right h.le]
  · rw [if_neg (not_lt.mpr h), min_eq_left h]

theorem flushWindows_nextFlush (ws : List Window) (t : Bool) (b : Int)
    (entries : List (String × Nat)) :
    ∀ (nwts : List Int) (i : Nat) (heap : List (Nat × Rollup)) (nf : Int),
      (flushWindows ws t b entries i nwts heap nf).2.2.2 =
        (flushWindows ws t b entries i nwts heap nf).1.foldl min nf := by
  intro nwts
  induction nwts with
  | nil => intro i heap nf; simp [flushWindows]
  | cons we rest ih =>
    intro i heap nf
    simp only [flushWindows]
    split
    · simp only [List.foldl_cons, ih, min_comm_flip]
    · simp only [List.foldl_cons, ih, min_comm_flip]

theorem flushExprs_nextFlush (cfg : Config) (t : Bool) (b : Int) :
    ∀ (l : List (String × Runlist)) (heap : List (Nat × Rollup)) (nf : Int),
      (flushExprs cfg t b l heap nf).2.2.2 =
        ((flushExprs cfg t b l heap nf).1.map fun er =>
          er.2.nextWriteTime).flatten.foldl min nf := by
  intro l
  induction l with
  | nil => intro heap nf; simp [flushExprs]
  | cons er rest ih =>
    intro heap nf
    obtain ⟨e, rl⟩ := er
    simp only [flushExprs, List.map_cons, List.flatten_cons, List.foldl_append]
    rw [ih, flushWindows_nextFlush]

/-- C9 amended: the duration `flush(false)` offers to the timer equals
`nextFlush - baseTime` whenever that difference is nonnegative — it may be
less than one millisecond, down to zero — and one millisecond exactly when
the difference is negative; `nextFlush` is the minimum of
`baseTime + 1 minute` and all next write times left in the state. -/
theorem flush_delay_formula (cfg : Config) (b : Int) (s : SMState) :
    (flush cfg false b s).2.2 =
      some (if ((flush cfg false b s).1.byExpr.map fun er =>
              er.2.nextWriteTime).flatten.foldl min (b + minute) - b < 0
            then millisecond
            else ((flush cfg false b s).1.byExpr.map fun er =>
              er.2.nextWriteTime).flatten.foldl min (b + minute) - b) := by
  simp only [flush, flushExprs_nextFlush]
  rfl

/-! ## C1: next write times after flush versus baseTime -/

/-- C1 failing input: `flush(false)` at `baseTime` exactly equal to a pending
window boundary. `windowEnd.Before(baseTime)` is strict, so the window is not
processed and its next write time remains `baseTime` — equal to, not strictly
later than, `baseTime`, contradicting the code's own ASSERT comment and the
claimed invariant. -/
theorem flush_boundary_equal_baseTime :
    (flush cfgOne false (10 * second) stateAtBoundary).1.byExpr =
      [("e", { nextWriteTime := [10 * second], path := [] })] ∧
      ¬((10 : Int) * second < 10 * second) := by
  decide

/-! ## C4: resolver behaviour on index errors and empty results -/

/-- Counterexample to C4 as stated: on an index error the resolver returns
Go's `nil` byte slice (`return nil`), which is not the serialization of an
empty list. -/
theorem resolver_empty_lookup_counterexample :
    simpleWild (fun _ _ => Except.error ()) "a.b" 2 = GopherResult.nilBytes ∧
      GopherResult.nilBytes ≠ GopherResult.serialized [] := by
  decide

/-- C4 amended: for every resolve flavour (exact, trailing-wildcard,
multi-wildcard), an index error or a zero-member result yields the nil
(empty) payload — not a serialized list — and such a resolve returns
normally rather than panicking. -/
theorem resolver_empty_lookup_returns_nil
    (zr : String → String → Except Unit (List String))
    (rex : String → Option (String → Bool)) (q : String) (sw : List String) (l : Int)
    (hs : zr (simpleLo q l) (getMax (simpleLo q l)) = .error () ∨
      zr (simpleLo q l) (getMax (simpleLo q l)) = .ok [])
    (hn : zr (noWildLo q l) (getMax (noWildLo q l)) = .error () ∨
      zr (noWildLo q l) (getMax (noWildLo q l)) = .ok [])
    (hc : zr (complexLo sw l) (getMax (complexLo sw l)) = .error () ∨
      zr (complexLo sw l) (getMax (complexLo sw l)) = .ok []) :
    simpleWild zr q l = .nilBytes ∧ noWild zr q l = .nilBytes ∧
      complexWild zr rex sw l = .nilBytes := by
  refine ⟨?_, ?_, ?_⟩
  · rcases hs with h | h <;> simp [simpleWild, h]
  · rcases hn with h | h <;> simp [noWild, h]
  · rcases hc with h | h <;> simp [complexWild, h]

/-- Witness for C4's amended statement with an empty index. -/
theorem resolver_empty_lookup_returns_nil_witness :
    simpleWild (fun _ _ => Except.ok []) "a" 1 = .nilBytes ∧
      noWild (fun _ _ => Except.ok []) "a" 1 = .nilBytes ∧
      complexWild (fun _ _ => Except.ok []) (fun _ => none) ["a", ""] 1 = .nilBytes :=
  resolver_empty_lookup_returns_nil (fun _ _ => Except.ok []) (fun _ => none)
    "a" ["a", ""] 1 (Or.inr rfl) (Or.inr rfl) (Or.inr rfl)

/-! ## C6: preservation of the two-level indexing invariant -/

theorem lookupKey_some_mem {α β : Type} [DecidableEq α] {k : α} {v : β} :
    ∀ {l : List (α × β)}, lookupKey k l = some v → (k, v) ∈ l := by
  intro l
  induction l with
  | nil => intro h; simp [lookupKey] at h
  | cons hd tl ih =>
    obtain ⟨k₀, v₀⟩ := hd
    intro h
    by_cases h₀ : k₀ = k
    · subst h₀
      simp only [lookupKey, eq_self_iff_true, if_true, Option.some_inj] at h
      exact h ▸ List.mem_cons_self _ _
    · simp only [lookupKey, if_neg h₀] at h
      exact List.mem_cons_of_mem _ (ih h)

theorem smInv_iff (s : SMState) :
    smInv s = true ↔
      ((∀ pr ∈ s.byPath, findView (pathViews s.byExpr) pr.1 = some pr.2) ∧
        ∀ ev ∈ pathViews s.byExpr, ∀ pr ∈ ev.2, lookupKey pr.1 s.byPath = some pr.2) := by
  simp [smInv, List.all_eq_true]

theorem lookupKey_pathViews (e : String) (l : List (String × Runlist)) :
    lookupKey e (pathViews l) = (lookupKey e l).map Runlist.path := by
  induction l with
  | nil => simp [pathViews, lookupKey]
  | cons hd tl ih =>
    obtain ⟨e₀, rl₀⟩ := hd
    by_cases h : e₀ = e <;> simp [pathViews, lookupKey, h, ih] <;>
      simpa [pathViews] using ih

theorem pathViews_updateKey (e : String) (g : List (String × Nat) → List (String × Nat)) :
    ∀ l : List (String × Runlist),
      pathViews (updateKey e (fun rl => { rl with path := g rl.path }) l) =
        updateKey e g (pathViews l) := by
  intro l
  induction l with
  | nil => simp [pathViews, updateKey]
  | cons hd tl ih =>
    obtain ⟨e₀, rl₀⟩ := hd
    by_cases h : e₀ = e <;> simp [pathViews, updateKey, h] <;>
      simpa [pathViews] using ih

/-- Inserting a fresh path binding under an existing expression makes it the
one `findView` finds, provided no run list already holds the path. -/
theorem findView_insert_fresh (p : String) (id : Nat) (e : String) :
    ∀ views : List (String × List (String × Nat)),
      (lookupKey e views).isSome →
      (∀ ev ∈ views, lookupKey p ev.2 = none) →
      findView (updateKey e (setKey p id) views) p = some id := by
  intro views
  induction views with
  | nil => intro h _; simp [lookupKey] at h
  | cons hd tl ih =>
    obtain ⟨e₀, v₀⟩ := hd
    intro hsome hnone
    by_cases h : e₀ = e
    · subst h
      simp only [updateKey, eq_self_iff_true, if_true, findView, List.findSome?_cons,
        lookupKey_setKey_self]
    · simp only [updateKey, if_neg h, findView, List.findSome?_cons,
        hnone (e₀, v₀) (List.mem_cons_self _ _)]
      have hsome' : (lookupKey e tl).isSome := by
        simpa [lookupKey, h] using hsome
      have hnone' : ∀ ev ∈ tl, lookupKey p ev.2 = none := fun ev hev =>
        hnone ev (List.mem_cons_of_mem _ hev)
      simpa [findView] using ih hsome' hnone'

/-- Inserting a binding for `p` leaves `findView` unchanged at `p' ≠ p`. -/
theorem findView_insert_other {p p' : String} (hne : p' ≠ p) (id : Nat) (e : String) :
    ∀ views : List (String × List (String × Nat)),
      findView (updateKey e (setKey p id) views) p' = findView views p' := by
  intro views
  induction views with
  | nil => simp [updateKey]
  | cons hd tl ih =>
    obtain ⟨e₀, v₀⟩ := hd
    by_cases h : e₀ = e
    · simp only [updateKey, if_pos h, findView, List.findSome?_cons,
        lookupKey_setKey_ne hne]
    · simp only [updateKey, if_neg h, findView, List.findSome?_cons]
      cases lookupKey p' v₀ with
      | none => simpa [findView] using ih
      | some x => rfl

theorem smInv_resetRollupData (cfg : Config) (t : Int) :
    smInv (resetRollupData cfg t) = true := by
  rw [smInv_iff]
  refine ⟨fun pr hpr => absurd hpr (by simp [resetRollupData]), ?_⟩
  intro ev hev pr hpr
  simp only [resetRollupData, pathViews, List.map_map, List.mem_map,
    Function.comp] at hev
  obtain ⟨ed, _, hev⟩ := hev
  subst hev
  simp at hpr

theorem smInv_accumulate (cfg : Config) (m : Metric) (s : SMState)
    (hinv : smInv s = true)
    (hwf : lookupKey m.path s.byPath = none →
      (lookupKey (getExpression cfg m.path) s.byExpr).isSome) :
    smInv (accumulate cfg m s).1 = true := by
  rcases h : lookupKey m.path s.byPath with _ | id
  · -- First sight: the path is inserted into both views with the same id.
    obtain ⟨hP1, hP2⟩ := (smInv_iff s).mp hinv
    have hviews : ∀ ev ∈ pathViews s.byExpr, lookupKey m.path ev.2 = none := by
      intro ev hev
      rcases hl : lookupKey m.path ev.2 with _ | id'
      · rfl
      · exact absurd (hP2 ev hev (m.path, id') (lookupKey_some_mem hl)) (by simp [h])
    have hexpr : (lookupKey (getExpression cfg m.path) (pathViews s.byExpr)).isSome := by
      rw [lookupKey_pathViews]
      rcases hx : lookupKey (getExpression cfg m.path) s.byExpr with _ | rl
      · exact absurd (hwf h) (by simp [hx])
      · simp
    rw [smInv_iff]
    constructor
    · intro pr hpr
      simp only [accumulate, h, pathViews_updateKey]
      rcases mem_setKey (by simpa [accumulate, h] using hpr) with hc | hc
      · subst hc
        exact findView_insert_fresh m.path s.nextId (getExpression cfg m.path)
          (pathViews s.byExpr) hexpr hviews
      · have hne : pr.1 ≠ m.path := by
          intro he
          exact lookupKey_none_not_mem h pr.2 (by rw [← he]; exact hc)
        rw [findView_insert_other hne]
        exact hP1 pr hc
    · intro ev hev pr hpr
      simp only [accumulate, h, pathViews_updateKey] at hev
      have hbp : (accumulate cfg m s).1.byPath = setKey m.path s.nextId s.byPath := by
        simp [accumulate, h]
      rw [hbp]
      rcases mem_updateKey hev with hc | ⟨v, hv, hev'⟩
      · -- untouched run list
        have hold := hP2 ev hc pr hpr
        have hne : pr.1 ≠ m.path := by
          intro he
          rw [he] at hold
          simp [h] at hold
        rw [lookupKey_setKey_ne hne]
        exact hold
      · -- the updated run list
        subst hev'
        rcases mem_setKey hpr with hc' | hc'
        · subst hc'
          exact lookupKey_setKey_self _ _ _
        · have hold := hP2 (getExpression cfg m.path, v) hv pr hc'
          have hne : pr.1 ≠ m.path := by
            intro he
            rw [he] at hold
            simp [h] at hold
          rw [lookupKey_setKey_ne hne]
          exact hold
  · -- Known path: only the heap changes, the two maps are untouched.
    simpa [accumulate, h, smInv, pathViews] using hinv

theorem flushExprs_pathViews (cfg : Config) (t : Bool) (b : Int) :
    ∀ (l : List (String × Runlist)) (heap : List (Nat × Rollup)) (nf : Int),
      pathViews (flushExprs cfg t b l heap nf).1 = pathViews l := by
  intro l
  induction l with
  | nil => intro heap nf; simp [flushExprs, pathViews]
  | cons er rest ih =>
    intro heap nf
    obtain ⟨e, rl⟩ := er
    simp only [flushExprs, pathViews, List.map_cons] at ih ⊢
    exact congrArg (List.cons _) (ih _ _)

theorem smInv_flush (cfg : Config) (t : Bool) (b : Int) (s : SMState)
    (hinv : smInv s = true) : smInv (flush cfg t b s).1 = true := by
  have hpv : pathViews (flush cfg t b s).1.byExpr = pathViews s.byExpr := by
    simp [flush, flushExprs_pathViews]
  have hbp : (flush cfg t b s).1.byPath = s.byPath := by
    simp [flush]
  simp only [smInv] at hinv ⊢
  rw [hpv, hbp]
  exact hinv

/-- C6: the two-level indexing invariant — a path is a key of `byPath`
exactly when some expression's run list holds it, and both maps record the
same rollup id (so, through the heap, a mutation via one view is visible via
the other) — holds after `resetRollupData` and is preserved by every
`accumulate` and every `flush`. -/
theorem storeManager_two_level_invariant (cfg : Config) (m : Metric)
    (t b : Int) (term : Bool) (s : SMState)
    (hinv : smInv s = true)
    (hwf : lookupKey m.path s.byPath = none →
      (lookupKey (getExpression cfg m.path) s.byExpr).isSome) :
    smInv (resetRollupData cfg t) = true ∧
      smInv (accumulate cfg m s).1 = true ∧
      smInv (flush cfg term b s).1 = true :=
  ⟨smInv_resetRollupData cfg t, smInv_accumulate cfg m s hinv hwf,
    smInv_flush cfg term b s hinv⟩

/-- Witness for C6, one step after a reset. -/
theorem storeManager_two_level_invariant_witness :
    smInv (resetRollupData cfgOne 0) = true ∧
      smInv (accumulate cfgOne { path := "a.b", value := 7, timestamp := 0 }
        (resetRollupData cfgOne 0)).1 = true ∧
      smInv (flush cfgOne false 0 (resetRollupData cfgOne 0)).1 = true :=
  storeManager_two_level_invariant cfgOne
    { path := "a.b", value := 7, timestamp := 0 } 0 0 false
    (resetRollupData cfgOne 0) (by decide) (by decide)

/-! ## C7: the terminating flush

Helper notions: `zeroRange i n` is the effect on one rollup of processing
windows `i, i+1, …, i+n-1`; `rowsForWindow` is the batch content one
`(expression, window)` pair contributes, read off a fixed heap;
`allWindowRows` strings those together over a run list's windows. -/

/-- Effect on a rollup of clearing buckets `i, …, i + n - 1` in order. -/
def zeroRange (i n : Nat) (r : Rollup) : Rollup :=
  match n with
  | 0 => r
  | n' + 1 => zeroRange (i + 1) n' (zeroAt i r)

/-- Rows contributed by one `(expression, window)` pair, read off `heap`. -/
def rowsForWindow (table : String) (st : Int) (i : Nat)
    (entries : List (String × Nat)) (heap : List (Nat × Rollup)) : List Row :=
  entries.filterMap fun pi =>
    (lookupKey pi.2 heap).bind fun r =>
      if 0 < r.count.getD i 0 then
        some { table := table, path := pi.1, statTime := st, value := r.value.getD i 0 }
      else none

/-- Rows contributed by all windows of one run list, every bucket read off
the same heap. -/
def allWindowRows (ws : List Window) (b : Int) (entries : List (String × Nat))
    (heap : List (Nat × Rollup)) : Nat → List Int → List Row
  | _, [] => []
  | i, _ :: rest =>
    rowsForWindow (ws.getD i { window := 0, retention := 0, table := "" }).table
        b i entries heap ++
      allWindowRows ws b entries heap (i + 1) rest

theorem getD_set_ne {α : Type} (l : List α) {i j : Nat} (h : i ≠ j) (a d : α) :
    (l.set i a).getD j d = l.getD j d := by
  simp [List.getD_eq_getElem?_getD, List.getElem?_set_ne h]

theorem getD_set_same {α : Type} (l : List α) (i : Nat) (a : α) :
    (l.set i a).getD i a = a := by
  rcases lt_or_ge i l.length with h | h
  · simp [List.getD_eq_getElem?_getD, List.getElem?_set_eq, h]
  · rw [List.getD_eq_getElem?_getD, List.getElem?_eq_none (by simpa using h)]
    rfl

theorem zeroRange_getD_lt (i : Nat) :
    ∀ (n j : Nat) (r : Rollup), i < j →
      (zeroRange j n r).count.getD i 0 = r.count.getD i 0 ∧
        (zeroRange j n r).value.getD i 0 = r.value.getD i 0 := by
  intro n
  induction n with
  | zero => intro j r _; exact ⟨rfl, rfl⟩
  | succ n' ih =>
    intro j r hij
    have h := ih (j + 1) (zeroAt j r) (Nat.lt_succ_of_lt hij)
    refine ⟨?_, ?_⟩
    · rw [zeroRange, h.1, zeroAt]
      exact getD_set_ne _ (Nat.ne_of_gt hij) _ _
    · rw [zeroRange, h.2, zeroAt]
      exact getD_set_ne _ (Nat.ne_of_gt hij) _ _

theorem zeroRange_getD_zero :
    ∀ (n j i : Nat) (r : Rollup), j ≤ i → i < j + n →
      (zeroRange j n r).count.getD i 0 = 0 ∧
        (zeroRange j n r).value.getD i 0 = 0 := by
  intro n
  induction n with
  | zero => intro j i r h1 h2; omega
  | succ n' ih =>
    intro j i r h1 h2
    rcases Nat.eq_or_lt_of_le h1 with he | hlt
    · subst he
      have h := zeroRange_getD_lt j n' (j + 1) (zeroAt j r) (Nat.lt_succ_self j)
      rw [zeroRange]
      refine ⟨?_, ?_⟩
      · rw [h.1, zeroAt]
        exact getD_set_same _ _ _
      · rw [h.2, zeroAt]
        exact getD_set_same _ _ _
    · rw [zeroRange]
      exact ih (j + 1) i (zeroAt j r) hlt (by omega)

theorem flushPaths_rows (table : String) (st : Int) (i : Nat) :
    ∀ (entries : List (String × Nat)) (heap : List (Nat × Rollup)),
      (entries.map Prod.snd).Nodup →
      (flushPaths table st i entries heap).2 =
        rowsForWindow table st i entries heap := by
  intro entries
  induction entries with
  | nil => intro heap _; rfl
  | cons pe rest ih =>
    intro heap hnd
    obtain ⟨p, id⟩ := pe
    have hnd' : (rest.map Prod.snd).Nodup := (List.nodup_cons.mp (by simpa using hnd)).2
    have hid : id ∉ rest.map Prod.snd := (List.nodup_cons.mp (by simpa using hnd)).1
    rcases hl : lookupKey id heap with _ | r
    · simp only [flushPaths, hl, rowsForWindow, List.filterMap_cons, Option.none_bind]
      exact ih heap hnd'
    · simp only [flushPaths, hl, rowsForWindow, List.filterMap_cons, Option.some_bind]
      have hsame : ∀ pi ∈ rest, lookupKey pi.2 (updateKey id (zeroAt i) heap) =
          lookupKey pi.2 heap := by
        intro pi hpi
        have : pi.2 ≠ id := by
          intro he
          exact hid (he ▸ List.mem_map_of_mem Prod.snd hpi)
        exact lookupKey_updateKey_ne this _ _
      have hcongr : rowsForWindow table st i rest (updateKey id (zeroAt i) heap) =
          rowsForWindow table st i rest heap := by
        unfold rowsForWindow
        apply List.filterMap_congr
        intro pi hpi
        rw [hsame pi hpi]
      rw [ih (updateKey id (zeroAt i) heap) hnd', hcongr]
      split <;> rfl

theorem flushPaths_heap_untouched (table : String) (st : Int) (i : Nat) :
    ∀ (entries : List (String × Nat)) (heap : List (Nat × Rollup)) (id : Nat),
      id ∉ entries.map Prod.snd →
      lookupKey id (flushPaths table st i entries heap).1 = lookupKey id heap := by
  intro entries
  induction entries with
  | nil => intro heap id _; rfl
  | cons pe rest ih =>
    intro heap id hid
    obtain ⟨p, id₀⟩ := pe
    have hne : id ≠ id₀ := by
      intro he
      exact hid (by simp [he])
    have hid' : id ∉ rest.map Prod.snd := fun hc => hid (by simp [hc])
    rcases hl : lookupKey id₀ heap with _ | r
    · simp only [flushPaths, hl]
      exact ih heap id hid'
    · simp only [flushPaths, hl]
      rw [ih _ id hid', lookupKey_updateKey_ne hne]

theorem flushPaths_heap (table : String) (st : Int) (i : Nat) :
    ∀ (entries : List (String × Nat)) (heap : List (Nat × Rollup)),
      (entries.map Prod.snd).Nodup →
      ∀ id, lookupKey id (flushPaths table st i entries heap).1 =
        if id ∈ entries.map Prod.snd
        then (lookupKey id heap).map (zeroAt i)
        else lookupKey id heap := by
  intro entries
  induction entries with
  | nil => intro heap _ id; simp [flushPaths]
  | cons pe rest ih =>
    intro heap hnd id
    obtain ⟨p, id₀⟩ := pe
    have hnd' : (rest.map Prod.snd).Nodup := (List.nodup_cons.mp (by simpa using hnd)).2
    have hid₀ : id₀ ∉ rest.map Prod.snd := (List.nodup_cons.mp (by simpa using hnd)).1
    rcases hl : lookupKey id₀ heap with _ | r
    · simp only [flushPaths, hl]
      rw [ih heap hnd' id]
      by_cases hmem : id ∈ rest.map Prod.snd
      · simp [hmem]
      · by_cases he : id = id₀
        · subst he
          simp [hmem, hl]
        · simp [hmem, he]
    · simp only [flushPaths, hl]
      rw [ih _ hnd' id]
      by_cases hmem : id ∈ rest.map Prod.snd
      · have hne : id ≠ id₀ := fun he => hid₀ (he ▸ hmem)
        rw [lookupKey_updateKey_ne hne]
        simp [hmem]
      · by_cases he : id = id₀
        · subst he
          rw [lookupKey_updateKey_self]
          simp [hmem, hl]
        · rw [lookupKey_updateKey_ne he]
          simp [hmem, he]

theorem rowsForWindow_congr_proj (table : String) (st : Int) (j : Nat)
    {entries : List (String × Nat)} {h1 h2 : List (Nat × Rollup)}
    (hc : ∀ pi ∈ entries,
      (lookupKey pi.2 h1).map (fun r => (r.count.getD j 0, r.value.getD j 0)) =
      (lookupKey pi.2 h2).map (fun r => (r.count.getD j 0, r.value.getD j 0))) :
    rowsForWindow table st j entries h1 = rowsForWindow table st j entries h2 := by
  unfold rowsForWindow
  apply List.filterMap_congr
  intro pi hpi
  have h := hc pi hpi
  cases hl1 : lookupKey pi.2 h1 with
  | none =>
    cases hl2 : lookupKey pi.2 h2 with
    | none => rfl
    | some r2 => rw [hl1, hl2] at h; simp at h
  | some r1 =>
    cases hl2 : lookupKey pi.2 h2 with
    | none => rw [hl1, hl2] at h; simp at h
    | some r2 =>
      rw [hl1, hl2] at h
      simp at h
      simp only [Option.some_bind, List.getD_eq_getElem?_getD]
      rw [h.1, h.2]

theorem allWindowRows_congr (ws : List Window) (b : Int) (entries : List (String × Nat)) :
    ∀ (nwts : List Int) (i : Nat) (h1 h2 : List (Nat × Rollup)),
      (∀ pi ∈ entries, ∀ j, i ≤ j →
        (lookupKey pi.2 h1).map (fun r => (r.count.getD j 0, r.value.getD j 0)) =
        (lookupKey pi.2 h2).map (fun r => (r.count.getD j 0, r.value.getD j 0))) →
      allWindowRows ws b entries h1 i nwts = allWindowRows ws b entries h2 i nwts := by
  intro nwts
  induction nwts with
  | nil => intro i h1 h2 _; rfl
  | cons x rest ih =>
    intro i h1 h2 hag
    simp only [allWindowRows]
    rw [rowsForWindow_congr_proj _ _ i fun pi hpi => hag pi hpi i le_rfl,
      ih (i + 1) h1 h2 fun pi hpi j hj => hag pi hpi j (Nat.le_of_succ_le hj)]

theorem flushWindows_true_rows (ws : List Window) (b : Int)
    (entries : List (String × Nat)) (hnd : (entries.map Prod.snd).Nodup) :
    ∀ (nwts : List Int) (i : Nat) (heap : List (Nat × Rollup)) (nf : Int),
      (flushWindows ws true b entries i nwts heap nf).2.2.1 =
        allWindowRows ws b entries heap i nwts := by
  intro nwts
  induction nwts with
  | nil => intro i heap nf; rfl
  | cons we rest ih =>
    intro i heap nf
    simp only [flushWindows, or_true, if_true, allWindowRows]
    rw [flushPaths_rows _ _ _ entries heap hnd, ih (i + 1) _ _]
    congr 1
    apply allWindowRows_congr
    intro pi hpi j hj
    rw [flushPaths_heap _ _ _ entries heap hnd pi.2,
      if_pos (List.mem_map_of_mem Prod.snd hpi)]
    cases lookupKey pi.2 heap with
    | none => rfl
    | some r =>
      have hne : i ≠ j := by omega
      simp [zeroAt, List.getElem?_set_ne hne]

theorem flushWindows_true_heap (ws : List Window) (b : Int)
    (entries : List (String × Nat)) (hnd : (entries.map Prod.snd).Nodup) :
    ∀ (nwts : List Int) (i : Nat) (heap : List (Nat × Rollup)) (nf : Int) (id : Nat),
      lookupKey id (flushWindows ws true b entries i nwts heap nf).2.1 =
        if id ∈ entries.map Prod.snd
        then (lookupKey id heap).map (zeroRange i nwts.length)
        else lookupKey id heap := by
  intro nwts
  induction nwts with
  | nil =>
    intro i heap nf id
    simp only [flushWindows, List.length_nil]
    split
    · cases lookupKey id heap <;> rfl
    · rfl
  | cons we rest ih =>
    intro i heap nf id
    simp only [flushWindows, or_true, if_true]
    rw [ih (i + 1) _ _ id, flushPaths_heap _ _ _ entries heap hnd id]
    by_cases hmem : id ∈ entries.map Prod.snd
    · simp only [if_pos hmem]
      cases lookupKey id heap with
      | none => rfl
      | some r =>
        simp only [Option.map_some, List.length_cons]
        rfl
    · simp [hmem]

theorem flushWindows_heap_untouched (ws : List Window) (t : Bool) (b : Int)
    (entries : List (String × Nat)) :
    ∀ (nwts : List Int) (i : Nat) (heap : List (Nat × Rollup)) (nf : Int) (id : Nat),
      id ∉ entries.map Prod.snd →
      lookupKey id (flushWindows ws t b entries i nwts heap nf).2.1 =
        lookupKey id heap := by
  intro nwts
  induction nwts with
  | nil => intro i heap nf id _; rfl
  | cons we rest ih =>
    intro i heap nf id hid
    simp only [flushWindows]
    split
    · rw [ih (i + 1) _ _ id hid]
      exact flushPaths_heap_untouched _ _ _ entries heap id hid
    · exact ih (i + 1) _ _ id hid

/-- All run-list ids of a `byExpr` slice. -/
def exprIds (l : List (String × Runlist)) : List Nat :=
  (l.map fun er => er.2.path.map Prod.snd).flatten

theorem flushExprs_heap_untouched (cfg : Config) (t : Bool) (b : Int) :
    ∀ (l : List (String × Runlist)) (heap : List (Nat × Rollup)) (nf : Int) (id : Nat),
      id ∉ exprIds l →
      lookupKey id (flushExprs cfg t b l heap nf).2.1 = lookupKey id heap := by
  intro l
  induction l with
  | nil => intro heap nf id _; rfl
  | cons er rest ih =>
    intro heap nf id hid
    obtain ⟨e, rl⟩ := er
    simp only [exprIds, List.map_cons, List.flatten_cons, List.mem_append, not_or] at hid
    simp only [flushExprs]
    rw [ih _ _ id (by simpa [exprIds] using hid.2)]
    exact flushWindows_heap_untouched _ _ _ _ _ _ _ _ id hid.1

theorem flushExprs_true_rows (cfg : Config) (b : Int) :
    ∀ (l : List (String × Runlist)) (heap : List (Nat × Rollup)) (nf : Int),
      (exprIds l).Nodup →
      (flushExprs cfg true b l heap nf).2.2.1 =
        (l.map fun er => allWindowRows (windowsOf cfg er.1) b er.2.path heap
          0 er.2.nextWriteTime).flatten := by
  intro l
  induction l with
  | nil => intro heap nf _; rfl
  | cons er rest ih =>
    intro heap nf hnd
    obtain ⟨e, rl⟩ := er
    rw [exprIds, List.map_cons, List.flatten_cons, List.nodup_append] at hnd
    obtain ⟨hnd1, hnd2, hdisj⟩ := hnd
    simp only [flushExprs, List.map_cons, List.flatten_cons]
    rw [flushWindows_true_rows _ _ _ hnd1, ih _ _ (by simpa [exprIds] using hnd2)]
    congr 1
    apply congrArg List.flatten
    apply List.map_congr_left
    intro er' her'
    apply allWindowRows_congr
    intro pi hpi j _
    have hmem : pi.2 ∈ exprIds rest := by
      simp only [exprIds, List.mem_flatten]
      exact ⟨er'.2.path.map Prod.snd, List.mem_map_of_mem _ her',
        List.mem_map_of_mem Prod.snd hpi⟩
    have hnot : pi.2 ∉ rl.path.map Prod.snd := fun hc =>
      hdisj hc (by simpa [exprIds] using hmem)
    rw [flushWindows_heap_untouched _ _ _ _ _ _ _ _ pi.2 hnot]

theorem flushExprs_true_heap (cfg : Config) (b : Int) :
    ∀ (l : List (String × Runlist)) (heap : List (Nat × Rollup)) (nf : Int),
      (exprIds l).Nodup →
      ∀ er ∈ l, ∀ pid ∈ er.2.path,
        lookupKey pid.2 (flushExprs cfg true b l heap nf).2.1 =
          (lookupKey pid.2 heap).map (zeroRange 0 er.2.nextWriteTime.length) := by
  intro l
  induction l with
  | nil => intro heap nf _ er her; simp at her
  | cons hd rest ih =>
    intro heap nf hnd er her pid hpid
    obtain ⟨e, rl⟩ := hd
    rw [exprIds, List.map_cons, List.flatten_cons, List.nodup_append] at hnd
    obtain ⟨hnd1, hnd2, hdisj⟩ := hnd
    rcases List.mem_cons.mp her with hc | hc
    · subst hc
      have hid : pid.2 ∈ rl.path.map Prod.snd := List.mem_map_of_mem Prod.snd hpid
      have hnotrest : pid.2 ∉ exprIds rest := fun hmem =>
        hdisj hid (by simpa [exprIds] using hmem)
      simp only [flushExprs]
      rw [flushExprs_heap_untouched cfg true b rest _ _ pid.2 hnotrest,
        flushWindows_true_heap _ _ _ hnd1, if_pos hid]
    · have hmem : pid.2 ∈ exprIds rest := by
        simp only [exprIds, List.mem_flatten]
        exact ⟨er.2.path.map Prod.snd, List.mem_map_of_mem _ hc,
          List.mem_map_of_mem Prod.snd hpid⟩
      have hnot : pid.2 ∉ rl.path.map Prod.snd := fun hcc =>
        hdisj hcc (by simpa [exprIds] using hmem)
      simp only [flushExprs]
      rw [ih _ _ (by simpa [exprIds] using hnd2) er hc pid hpid,
        flushWindows_heap_untouched _ _ _ _ _ _ _ _ pid.2 hnot]

theorem mem_rowsForWindow_statTime {table : String} {st : Int} {i : Nat}
    {entries : List (String × Nat)} {heap : List (Nat × Rollup)} {row : Row}
    (h : row ∈ rowsForWindow table st i entries heap) : row.statTime = st := by
  unfold rowsForWindow at h
  obtain ⟨pi, _, hf⟩ := List.mem_filterMap.mp h
  rcases hl : lookupKey pi.2 heap with _ | r
  · rw [hl] at hf
    simp at hf
  · rw [hl] at hf
    simp only [Option.some_bind] at hf
    split at hf
    · rw [Option.some_inj] at hf
      exact hf ▸ rfl
    · simp at hf

theorem mem_allWindowRows_statTime (ws : List Window) (b : Int)
    (entries : List (String × Nat)) (heap : List (Nat × Rollup)) :
    ∀ (nwts : List Int) (i : Nat) (row : Row),
      row ∈ allWindowRows ws b entries heap i nwts → row.statTime = b := by
  intro nwts
  induction nwts with
  | nil => intro i row h; simp [allWindowRows] at h
  | cons x rest ih =>
    intro i row h
    rcases List.mem_append.mp h with hc | hc
    · exact mem_rowsForWindow_statTime hc
    · exact ih (i + 1) row hc

theorem rowsForWindow_mem (table : String) (st : Int) (i : Nat)
    {entries : List (String × Nat)} {heap : List (Nat × Rollup)}
    {pid : String × Nat} (hpid : pid ∈ entries) {r : Rollup}
    (hl : lookupKey pid.2 heap = some r) (hc : 0 < r.count.getD i 0) :
    ({ table := table, path := pid.1, statTime := st,
        value := r.value.getD i 0 } : Row) ∈
      rowsForWindow table st i entries heap :=
  List.mem_filterMap.mpr ⟨pid, hpid, by rw [hl, Option.some_bind, if_pos hc]⟩

theorem mem_allWindowRows_of (ws : List Window) (b : Int)
    (entries : List (String × Nat)) (heap : List (Nat × Rollup)) :
    ∀ (nwts : List Int) (st i : Nat), st ≤ i → i < st + nwts.length →
      ∀ pid ∈ entries, ∀ r : Rollup, lookupKey pid.2 heap = some r →
        0 < r.count.getD i 0 →
        ({ table := (ws.getD i { window := 0, retention := 0, table := "" }).table,
            path := pid.1, statTime := b, value := r.value.getD i 0 } : Row) ∈
          allWindowRows ws b entries heap st nwts := by
  intro nwts
  induction nwts with
  | nil =>
    intro st i h1 h2
    rw [List.length_nil, Nat.add_zero] at h2
    exact absurd h2 (Nat.not_lt.mpr h1)
  | cons x rest ih =>
    intro st i h1 h2 pid hpid r hl hc
    rcases Nat.eq_or_lt_of_le h1 with he | hlt
    · subst he
      exact List.mem_append.mpr (Or.inl (rowsForWindow_mem _ _ _ hpid hl hc))
    · refine List.mem_append.mpr (Or.inr (ih (st + 1) i hlt ?_ pid hpid r hl hc))
      simp only [List.length_cons] at h2
      omega

/-- C7: `flush(true)` processes every window of every expression whether or
not its boundary has passed — every bucket with a positive count is emitted
as a row stamped `statTime = baseTime` (never the window boundary), and after
the call every bucket's count and value are zero. The hypothesis asks the
rollup ids recorded across run lists to be distinct, which holds because Go
allocates a fresh `*rollup` per path. -/
theorem flush_terminating_drains (cfg : Config) (b : Int) (s : SMState)
    (hnd : (runIds s).Nodup) :
    (∀ row ∈ (flush cfg true b s).2.1, row.statTime = b) ∧
      (∀ er ∈ s.byExpr, ∀ i, i < er.2.nextWriteTime.length →
        ∀ pid ∈ er.2.path, ∀ r : Rollup, lookupKey pid.2 s.heap = some r →
          0 < r.count.getD i 0 →
          ({ table := ((windowsOf cfg er.1).getD i
                { window := 0, retention := 0, table := "" }).table,
              path := pid.1, statTime := b,
              value := r.value.getD i 0 } : Row) ∈ (flush cfg true b s).2.1) ∧
      (∀ er ∈ s.byExpr, ∀ pid ∈ er.2.path, ∀ i, i < er.2.nextWriteTime.length →
        heapCountAt (flush cfg true b s).1.heap pid.2 i = 0 ∧
          heapValueAt (flush cfg true b s).1.heap pid.2 i = 0) := by
  have hnd' : (exprIds s.byExpr).Nodup := hnd
  have hrows : (flush cfg true b s).2.1 =
      (s.byExpr.map fun er => allWindowRows (windowsOf cfg er.1) b er.2.path s.heap
        0 er.2.nextWriteTime).flatten :=
    flushExprs_true_rows cfg b s.byExpr s.heap (b + minute) hnd'
  refine ⟨?_, ?_, ?_⟩
  · intro row hrow
    rw [hrows] at hrow
    obtain ⟨rows, hrowsmem, hrmem⟩ := List.mem_flatten.mp hrow
    obtain ⟨er, _, hre⟩ := List.mem_map.mp hrowsmem
    rw [← hre] at hrmem
    exact mem_allWindowRows_statTime _ _ _ _ _ _ _ hrmem
  · intro er her i hi pid hpid r hl hc
    rw [hrows]
    refine List.mem_flatten.mpr ⟨_, List.mem_map_of_mem _ her, ?_⟩
    exact mem_allWindowRows_of _ _ _ _ er.2.nextWriteTime 0 i (Nat.zero_le i)
      (by simpa using hi) pid hpid r hl hc
  · intro er her pid hpid i hi
    have hheap : lookupKey pid.2 (flush cfg true b s).1.heap =
        (lookupKey pid.2 s.heap).map (zeroRange 0 er.2.nextWriteTime.length) :=
      flushExprs_true_heap cfg b s.byExpr s.heap (b + minute) hnd' er her pid hpid
    rcases hl : lookupKey pid.2 s.heap with _ | r
    · rw [hl] at hheap
      simp at hheap
      simp [heapCountAt, heapValueAt, hheap]
    · rw [hl] at hheap
      simp at hheap
      have hz := zeroRange_getD_zero er.2.nextWriteTime.length 0 i r (Nat.zero_le i)
        (by simpa using hi)
      simp only [heapCountAt, heapValueAt, hheap]
      exact hz

/-- A one-path, one-window state with a pending (count 2, value 5) bucket. -/
def statePending : SMState :=
  { byPath := [("a", 0)]
    byExpr := [("e", { nextWriteTime := [10 * second], path := [("a", 0)] })]
    heap := [(0, { expr := "e", count := [2], value := [5] })]
    nextId := 1 }

/-- Witness for C7 on `statePending`. -/
theorem flush_terminating_drains_witness :
    (∀ row ∈ (flush cfgOne true (3 * second) statePending).2.1,
        row.statTime = 3 * second) ∧
      (∀ er ∈ statePending.byExpr, ∀ i, i < er.2.nextWriteTime.length →
        ∀ pid ∈ er.2.path, ∀ r : Rollup, lookupKey pid.2 statePending.heap = some r →
          0 < r.count.getD i 0 →
          ({ table := ((windowsOf cfgOne er.1).getD i
                { window := 0, retention := 0, table := "" }).table,
              path := pid.1, statTime := 3 * second,
              value := r.value.getD i 0 } : Row) ∈
            (flush cfgOne true (3 * second) statePending).2.1) ∧
      (∀ er ∈ statePending.byExpr, ∀ pid ∈ er.2.path,
        ∀ i, i < er.2.nextWriteTime.length →
          heapCountAt (flush cfgOne true (3 * second) statePending).1.heap pid.2 i = 0 ∧
            heapValueAt (flush cfgOne true (3 * second) statePending).1.heap pid.2 i = 0) :=
  flush_terminating_drains cfgOne (3 * second) statePending (by decide)

end Cassabon
